import Mathlib

/-!
Verification of the runtime-modules reconciliation engine.

Shallow embedding of the Rust sources:
  * `src/lib.rs`    — `ModuleState`, `Module`, `ModuleRegistry`, `ModuleFile`
  * `src/module_manager.rs` — `ModuleManager` (effective state, apply protocol)

Modelling decisions:
  * Rust `String` is Lean `String`; file contents are modelled as `List Char`
    (`str::lines`, `str::trim`, `str::find` and `str::contains` are re-implemented
    on `List Char`; `str::lines` is modelled as splitting on a newline character,
    which differs from Rust only by a trailing empty segment and CR-stripping,
    neither of which affects any modelled computation because every line is
    trimmed before use and empty lines match no parse pattern).
  * `Vec<T>` is `List T`; `HashSet` membership is list membership (same
    observable behaviour).
  * `ModuleRegistry.module_map : Option<HashMap<String,usize>>` is represented
    by a boolean flag `hasMap`.  The map is only ever created by `init_lookup`
    from the then-current module names, inserting `(name, index)` pairs in
    order (so a later duplicate name overwrites an earlier one), and no
    modelled operation ever changes a module's name afterwards; hence the
    stored map is always exactly the map recomputed from the current names,
    and we recompute it at each lookup (`mapLookup`, last-occurrence index)
    instead of storing it.  The linear-scan fallback (`linearLookup`,
    first-occurrence index) is the map-absent path.
  * Filesystem writes and the external applier are modelled by an environment
    `ApplyEnv` saying which of them succeed, and a `Trace` recording what was
    written and whether the applier was invoked.
-/

namespace RuntimeModules

/-- `ModuleState` from `src/lib.rs` (derive `Default` picks `Disabled`). -/
inductive ModuleState where
  | Enabled
  | Disabled
  | Uncertain
deriving DecidableEq, Repr

/-- `Module` from `src/lib.rs`. -/
structure Module where
  name : String
  path : String
  desc : String
  state : ModuleState
deriving DecidableEq, Repr

/-- `ModuleRegistry` from `src/lib.rs`; see the header comment for why the
lookup map is represented by the flag `hasMap`. -/
structure ModuleRegistry where
  modules : List Module
  hasMap : Bool
deriving DecidableEq, Repr

/-- Index returned by the `module_map` `HashMap` built by `init_lookup`:
pairs `(name, index)` are inserted in order, so for a duplicated name the
later (larger) index overwrites the earlier one — the map yields the index of
the LAST occurrence of a name. -/
def mapLookup : List Module → String → Option Nat
  | [], _ => none
  | m :: rest, n =>
      match mapLookup rest n with
      | some i => some (i + 1)
      | none => if m.name = n then some 0 else none

/-- Index found by the linear-scan fallback loops in `get_module_path`,
`get_state`, `set_state`: the FIRST occurrence of the name. -/
def linearLookup : List Module → String → Option Nat
  | [], _ => none
  | m :: rest, n =>
      if m.name = n then some 0 else (linearLookup rest n).map (· + 1)

/-- The index a registry lookup resolves a name to: via the map when it is
initialized, via linear scan otherwise (the two branches of `get_module_path`,
`get_state` and `set_state` in `src/lib.rs`). -/
def ModuleRegistry.lookupIdx (r : ModuleRegistry) (n : String) : Option Nat :=
  if r.hasMap then mapLookup r.modules n else linearLookup r.modules n

/-- `ModuleRegistry::get_module_path` (src/lib.rs:111). -/
def ModuleRegistry.get_module_path (r : ModuleRegistry) (n : String) : Option String :=
  (r.lookupIdx n).bind fun i => r.modules[i]?.map Module.path

/-- `ModuleRegistry::get_state` (src/lib.rs:129): `Disabled` when not found. -/
def ModuleRegistry.get_state (r : ModuleRegistry) (n : String) : ModuleState :=
  match r.lookupIdx n with
  | some i =>
      match r.modules[i]? with
      | some m => m.state
      | none => ModuleState.Disabled
  | none => ModuleState.Disabled

/-- `ModuleRegistry::set_state` (src/lib.rs:146): returns the updated registry
and whether the name existed. -/
def ModuleRegistry.set_state (r : ModuleRegistry) (n : String) (s : ModuleState) :
    ModuleRegistry × Bool :=
  match r.lookupIdx n with
  | some i =>
      ({ r with modules := List.modify (fun m => { m with state := s }) i r.modules }, true)
  | none => (r, false)

/-- `ModuleRegistry::mark_uncertain` (src/lib.rs:165): `set_state … Uncertain`
for each listed name, result of `set_state` ignored. -/
def ModuleRegistry.mark_uncertain (r : ModuleRegistry) (names : List String) : ModuleRegistry :=
  names.foldl (fun acc n => (acc.set_state n ModuleState.Uncertain).1) r

/-- `ModuleRegistry::confirm_states` (src/lib.rs:172): every module named in
`active` becomes `Enabled`, every other module `Disabled`. -/
def ModuleRegistry.confirm_states (r : ModuleRegistry) (active : List String) : ModuleRegistry :=
  { r with
    modules := r.modules.map fun m =>
      { m with state := if active.contains m.name then ModuleState.Enabled
                        else ModuleState.Disabled } }

/-- Whether some module in the registry carries this name. -/
def ModuleRegistry.containsName (r : ModuleRegistry) (n : String) : Bool :=
  r.modules.any fun m => m.name == n

/-- `ModuleFile` from `src/lib.rs`.  The cached raw `content` field is never
read by any modelled operation and is omitted. -/
structure ModuleFile where
  active_modules : List String
deriving DecidableEq, Repr

/-- `ModuleFile::is_module_enabled` (src/lib.rs:281). -/
def ModuleFile.is_module_enabled (f : ModuleFile) (n : String) : Bool :=
  f.active_modules.any fun name => name == n

/-- The loop body of `ModuleFile::enable_modules` (src/lib.rs:289-294): push
the name when it is not already present and record that a change was made. -/
def enableStep (acc : ModuleFile × Bool) (m : String) : ModuleFile × Bool :=
  if acc.1.is_module_enabled m then acc
  else ({ active_modules := acc.1.active_modules ++ [m] }, true)

/-- `ModuleFile::enable_modules` (src/lib.rs:286): push each name not already
present (in order), report whether anything was pushed. -/
def ModuleFile.enable_modules (f : ModuleFile) (modules : List String) : ModuleFile × Bool :=
  modules.foldl enableStep (f, false)

/-- `ModuleFile::disable_modules` (src/lib.rs:300): retain names not listed,
report whether the length shrank. -/
def ModuleFile.disable_modules (f : ModuleFile) (modules : List String) : ModuleFile × Bool :=
  let kept := f.active_modules.filter fun m => !(modules.contains m)
  ({ active_modules := kept }, decide (f.active_modules.length ≠ kept.length))

/-! ### Character-level string operations (models of `str` methods). -/

/-- Model of `str::lines`: split on the newline character.  (Rust additionally
drops a trailing empty segment and strips a trailing CR per line; neither
difference is observable through `parse_active_modules`, which trims every
line and skips lines matching no pattern.) -/
def splitLines : List Char → List (List Char)
  | [] => [[]]
  | c :: cs =>
      if c = '\n' then [] :: splitLines cs
      else
        match splitLines cs with
        | [] => [[c]]
        | l :: ls => (c :: l) :: ls

/-- Rust `char::is_whitespace`: the Unicode `White_Space` property
(U+0009–U+000D, U+0020, U+0085, U+00A0, U+1680, U+2000–U+200A, U+2028,
U+2029, U+202F, U+205F, U+3000). -/
def isRustWhitespace (c : Char) : Bool :=
  (0x9 ≤ c.toNat && c.toNat ≤ 0xD) || c.toNat == 0x20 || c.toNat == 0x85 ||
    c.toNat == 0xA0 || c.toNat == 0x1680 ||
    (0x2000 ≤ c.toNat && c.toNat ≤ 0x200A) || c.toNat == 0x2028 ||
    c.toNat == 0x2029 || c.toNat == 0x202F || c.toNat == 0x205F || c.toNat == 0x3000

/-- Model of `str::trim` (Unicode whitespace stripped from both ends). -/
def trimChars (cs : List Char) : List Char :=
  ((cs.dropWhile isRustWhitespace).reverse.dropWhile isRustWhitespace).reverse

/-- Does `l` start with `pat`? (model of `str::starts_with`, used to build the
substring test). -/
def startsWithSeq : List Char → List Char → Bool
  | [], _ => true
  | _ :: _, [] => false
  | p :: ps, c :: cs => p = c && startsWithSeq ps cs

/-- Model of `str::contains(pattern)`: `pat` occurs as a contiguous
subsequence of `l`. -/
def containsSeq (pat : List Char) : List Char → Bool
  | [] => pat.isEmpty
  | c :: cs => startsWithSeq pat (c :: cs) || containsSeq pat cs

/-- Model of `str::find('#')`: index of the first occurrence. -/
def findCharIdx (c : Char) : List Char → Option Nat
  | [] => none
  | x :: xs => if x = c then some 0 else (findCharIdx c xs).map (· + 1)

/-- One iteration of the loop in `ModuleFile::parse_active_modules`
(src/lib.rs:262): trim the line; if it mentions `/nix/store/` and `.nix`,
take the text after the first `#`, trim it, and keep it when non-empty. -/
def parseLine (line : List Char) : Option String :=
  let l := trimChars line
  if containsSeq "/nix/store/".data l && containsSeq ".nix".data l then
    match findCharIdx '#' l with
    | some i =>
        let name := trimChars (l.drop (i + 1))
        if name.isEmpty then none else some (String.mk name)
    | none => none
  else none

/-- `ModuleFile::parse_active_modules` (src/lib.rs:258). -/
def parse_active_modules (content : List Char) : List String :=
  (splitLines content).filterMap parseLine

/-- One line emitted by the loop in `ModuleFile::generate_file_content`
(src/lib.rs:338): `    "path" # module\n` when the module resolves in
`module_paths` (first matching entry), nothing otherwise. -/
def moduleLine (module_paths : List (String × String)) (m : String) : List Char :=
  match module_paths.find? (fun p => p.1 == m) with
  | some p => "    \"".data ++ p.2.data ++ "\" # ".data ++ m.data ++ ['\n']
  | none => []

/-- `ModuleFile::generate_file_content` (src/lib.rs:327). -/
def generate_file_content (modules : List String) (module_paths : List (String × String)) :
    List Char :=
  "# This file is generated by runtime-module script\n\x7b ... \x7d:\n\x7b\n".data
    ++ (if modules.isEmpty then "  # No active modules\n".data
        else "  imports = [\n".data
          ++ modules.flatMap (moduleLine module_paths)
          ++ "  ];\n".data)
    ++ "\x7d\n".data

/-- `ModuleFile::generate_content` (src/lib.rs:312): resolve each active name
through the registry (unresolvable names are skipped), then render. -/
def ModuleFile.generate_content (f : ModuleFile) (r : ModuleRegistry) : List Char :=
  let module_paths : List (String × String) :=
    f.active_modules.filterMap fun m => (r.get_module_path m).map fun p => (m, p)
  generate_file_content f.active_modules module_paths

/-! ### The reconciliation engine (`src/module_manager.rs`). -/

/-- `ModuleManager` from `src/module_manager.rs`. -/
structure ModuleManager where
  registry : ModuleRegistry
  module_file : ModuleFile
deriving DecidableEq, Repr

/-- `ModuleManager::get_effective_state` (src/module_manager.rs:46). -/
def ModuleManager.get_effective_state (mgr : ModuleManager) (module : String) : ModuleState :=
  let is_in_config := mgr.module_file.is_module_enabled module
  let state := mgr.registry.get_state module
  if state = ModuleState.Uncertain then ModuleState.Uncertain
  else if is_in_config then ModuleState.Enabled
  else ModuleState.Disabled

/-- `ModuleManager::sync_registry_with_module_file` (src/module_manager.rs:36):
each name in the activation set whose registry state is not `Uncertain` is set
to `Enabled`. -/
def ModuleManager.sync_registry_with_module_file (mgr : ModuleManager) : ModuleManager :=
  { mgr with
    registry :=
      mgr.module_file.active_modules.foldl
        (fun r module =>
          if r.get_state module ≠ ModuleState.Uncertain then
            (r.set_state module ModuleState.Enabled).1
          else r)
        mgr.registry }

/-- Which of the external effects succeed during one apply: the descriptor
file write, the external applier, and the registry file write. -/
structure ApplyEnv where
  fileWriteOk : Bool
  applierOk : Bool
  registryWriteOk : Bool
deriving DecidableEq, Repr

/-- Externally observable effects of one operation. -/
structure Trace where
  savedModuleFile : Option (List Char)
  savedRegistry : Option ModuleRegistry
  applierInvoked : Bool
deriving DecidableEq, Repr

/-- Errors surfaced by `apply_changes`. -/
inductive AppError where
  | ioDescriptor
  | applyFailure
  | ioRegistry
deriving DecidableEq, Repr

/-- `ModuleManager::apply_changes` (src/module_manager.rs:114):
1. render and write the descriptor file — on write failure abort with an IO
   error, the registry untouched and the applier never invoked;
2. invoke the applier;
3. on success `confirm_states` over the activation set and save the registry;
4. on failure `mark_uncertain` over the activation set, save the registry
   anyway, and return the apply error (a failing registry save returns the
   save error instead). -/
def ModuleManager.apply_changes (mgr : ModuleManager) (env : ApplyEnv) :
    ModuleManager × Trace × Except AppError Unit :=
  if env.fileWriteOk then
    let content := mgr.module_file.generate_content mgr.registry
    if env.applierOk then
      let r := mgr.registry.confirm_states mgr.module_file.active_modules
      if env.registryWriteOk then
        ({ mgr with registry := r },
          { savedModuleFile := some content, savedRegistry := some r, applierInvoked := true },
          Except.ok ())
      else
        ({ mgr with registry := r },
          { savedModuleFile := some content, savedRegistry := none, applierInvoked := true },
          Except.error AppError.ioRegistry)
    else
      let r := mgr.registry.mark_uncertain mgr.module_file.active_modules
      if env.registryWriteOk then
        ({ mgr with registry := r },
          { savedModuleFile := some content, savedRegistry := some r, applierInvoked := true },
          Except.error AppError.applyFailure)
      else
        ({ mgr with registry := r },
          { savedModuleFile := some content, savedRegistry := none, applierInvoked := true },
          Except.error AppError.ioRegistry)
  else
    (mgr, { savedModuleFile := none, savedRegistry := none, applierInvoked := false },
      Except.error AppError.ioDescriptor)

/-- One iteration of the status-inspection loop of
`ModuleManager::enable_modules` (src/module_manager.rs:151-167): `Enabled`
leaves registry and flag alone, `Uncertain` only raises the `changes` flag,
`Disabled` transitions the catalog entry to `Uncertain` and raises the flag. -/
def enableScanStep (file : ModuleFile) (acc : ModuleRegistry × Bool) (module : String) :
    ModuleRegistry × Bool :=
  match ModuleManager.get_effective_state ⟨acc.1, file⟩ module with
  | ModuleState.Enabled => acc
  | ModuleState.Uncertain => (acc.1, true)
  | ModuleState.Disabled => ((acc.1.set_state module ModuleState.Uncertain).1, true)

/-- The status-inspection loop of `ModuleManager::enable_modules` folded over
the requested names, carrying the registry and the `changes` flag. -/
def enableScan (file : ModuleFile) (modules : List String) (acc : ModuleRegistry × Bool) :
    ModuleRegistry × Bool :=
  modules.foldl (enableScanStep file) acc

/-- `ModuleManager::enable_modules` (src/module_manager.rs:147): scan the
requested names updating registry states and the `changes` flag, add the
names to the activation set, and run the apply step when something changed or
`force` is set; otherwise a pure no-op returning `changed = false`. -/
def ModuleManager.enable_modules (mgr : ModuleManager) (modules : List String) (force : Bool)
    (env : ApplyEnv) : ModuleManager × Trace × Except AppError Bool :=
  let scanned := enableScan mgr.module_file modules (mgr.registry, false)
  let fileRes := mgr.module_file.enable_modules modules
  let changes := scanned.2 || fileRes.2
  let mgr1 : ModuleManager := { registry := scanned.1, module_file := fileRes.1 }
  if changes || force then
    match mgr1.apply_changes env with
    | (mgr2, t, Except.ok ()) => (mgr2, t, Except.ok changes)
    | (mgr2, t, Except.error e) => (mgr2, t, Except.error e)
  else
    (mgr1, { savedModuleFile := none, savedRegistry := none, applierInvoked := false },
      Except.ok changes)

/-! ### Auxiliary definitions used by the verification. -/

/-- The effective-state algorithm exactly as the specification's pseudocode
states it (§4.3): `Uncertain` takes precedence over activation-set
membership, then membership decides `Enabled` versus `Disabled`. -/
def effectiveStateSpec (catalogState : ModuleState) (isMember : Bool) : ModuleState :=
  if catalogState = ModuleState.Uncertain then ModuleState.Uncertain
  else if isMember then ModuleState.Enabled
  else ModuleState.Disabled

/-- An activation-set mutation: `add_all` or `remove_all`. -/
inductive FileOp where
  | add (names : List String)
  | remove (names : List String)
deriving DecidableEq, Repr

/-- Run one activation-set mutation. -/
def applyFileOp (f : ModuleFile) : FileOp → ModuleFile
  | FileOp.add names => (f.enable_modules names).1
  | FileOp.remove names => (f.disable_modules names).1

/-- Run a sequence of activation-set mutations. -/
def applyFileOps (f : ModuleFile) (ops : List FileOp) : ModuleFile :=
  ops.foldl applyFileOp f

/-- A one-module catalog whose module `a` has install path `p` — a path that
does not mention `/nix/store/`, so the rendered descriptor line for `a` is
invisible to `parse_active_modules`. -/
def cexRegistry : ModuleRegistry :=
  ⟨[⟨"a", "p", "", ModuleState.Disabled⟩], true⟩

/-- Activation set `["a"]` for the round-trip counterexample. -/
def cexFile : ModuleFile := ⟨["a"]⟩

/-! ## Lemmas about the registry lookup paths. -/

theorem mapLookup_sound {ms : List Module} {n : String} {i : Nat}
    (h : mapLookup ms n = some i) : ∃ m, ms[i]? = some m ∧ m.name = n := by
  induction ms generalizing i with
  | nil => simp [mapLookup] at h
  | cons m rest ih =>
      rw [mapLookup] at h
      cases hrest : mapLookup rest n with
      | some j =>
          rw [hrest] at h
          obtain ⟨m', hm', hname⟩ := ih hrest
          cases h
          exact ⟨m', by simpa using hm', hname⟩
      | none =>
          rw [hrest] at h
          by_cases hn : m.name = n
          · rw [if_pos hn] at h
            cases h
            exact ⟨m, by simp, hn⟩
          · simp [hn] at h

theorem linearLookup_sound {ms : List Module} {n : String} {i : Nat}
    (h : linearLookup ms n = some i) : ∃ m, ms[i]? = some m ∧ m.name = n := by
  induction ms generalizing i with
  | nil => simp [linearLookup] at h
  | cons m rest ih =>
      rw [linearLookup] at h
      by_cases hn : m.name = n
      · rw [if_pos hn] at h
        cases h
        exact ⟨m, by simp, hn⟩
      · rw [if_neg hn] at h
        cases hrest : linearLookup rest n with
        | some j =>
            rw [hrest] at h
            obtain ⟨m', hm', hname⟩ := ih hrest
            cases h
            exact ⟨m', by simpa using hm', hname⟩
        | none => rw [hrest] at h; cases h

theorem mapLookup_eq_none_iff {ms : List Module} {n : String} :
    mapLookup ms n = none ↔ ∀ m ∈ ms, m.name ≠ n := by
  induction ms with
  | nil => simp [mapLookup]
  | cons m rest ih =>
      rw [mapLookup]
      cases hrest : mapLookup rest n with
      | some j =>
          constructor
          · intro h; cases h
          · intro h
            have hnone : mapLookup rest n = none :=
              ih.mpr fun m' hm' => h m' (List.mem_cons_of_mem _ hm')
            rw [hnone] at hrest
            cases hrest
      | none =>
          have hrest' := ih.mp hrest
          by_cases hn : m.name = n
          · rw [if_pos hn]
            constructor
            · intro h; cases h
            · intro h; exact absurd hn (h m (List.mem_cons_self m rest))
          · rw [if_neg hn]
            constructor
            · intro _ m' hm'
              rcases List.mem_cons.mp hm' with rfl | hm'
              · exact hn
              · exact hrest' m' hm'
            · intro _; rfl

theorem linearLookup_eq_none_iff {ms : List Module} {n : String} :
    linearLookup ms n = none ↔ ∀ m ∈ ms, m.name ≠ n := by
  induction ms with
  | nil => simp [linearLookup]
  | cons m rest ih =>
      rw [linearLookup]
      by_cases hn : m.name = n
      · rw [if_pos hn]
        constructor
        · intro h; cases h
        · intro h; exact absurd hn (h m (List.mem_cons_self m rest))
      · rw [if_neg hn]
        cases hrest : linearLookup rest n with
        | some j =>
            constructor
            · intro h; cases h
            · intro h
              have hnone : linearLookup rest n = none :=
                ih.mpr fun m' hm' => h m' (List.mem_cons_of_mem _ hm')
              rw [hnone] at hrest
              cases hrest
        | none =>
            have hrest' := ih.mp hrest
            constructor
            · intro _ m' hm'
              rcases List.mem_cons.mp hm' with rfl | hm'
              · exact hn
              · exact hrest' m' hm'
            · intro _; rfl

theorem mapLookup_congr {ms ms' : List Module}
    (h : ms.map Module.name = ms'.map Module.name) (n : String) :
    mapLookup ms n = mapLookup ms' n := by
  induction ms generalizing ms' with
  | nil =>
      cases ms' with
      | nil => rfl
      | cons _ _ => simp at h
  | cons m rest ih =>
      cases ms' with
      | nil => simp at h
      | cons m' rest' =>
          simp only [List.map_cons, List.cons.injEq] at h
          rw [mapLookup, mapLookup, ih h.2, h.1]

theorem linearLookup_congr {ms ms' : List Module}
    (h : ms.map Module.name = ms'.map Module.name) (n : String) :
    linearLookup ms n = linearLookup ms' n := by
  induction ms generalizing ms' with
  | nil =>
      cases ms' with
      | nil => rfl
      | cons _ _ => simp at h
  | cons m rest ih =>
      cases ms' with
      | nil => simp at h
      | cons m' rest' =>
          simp only [List.map_cons, List.cons.injEq] at h
          rw [linearLookup, linearLookup, ih h.2, h.1]

theorem containsName_iff {r : ModuleRegistry} {n : String} :
    r.containsName n = true ↔ ∃ m ∈ r.modules, m.name = n := by
  simp [ModuleRegistry.containsName, List.any_eq_true]

theorem lookupIdx_sound {r : ModuleRegistry} {n : String} {i : Nat}
    (h : r.lookupIdx n = some i) : ∃ m, r.modules[i]? = some m ∧ m.name = n := by
  rw [ModuleRegistry.lookupIdx] at h
  by_cases hb : r.hasMap
  · exact mapLookup_sound (by rwa [if_pos hb] at h)
  · exact linearLookup_sound (by rwa [if_neg hb] at h)

theorem lookupIdx_eq_none_iff {r : ModuleRegistry} {n : String} :
    r.lookupIdx n = none ↔ r.containsName n = false := by
  have hcontra : (∀ m ∈ r.modules, m.name ≠ n) ↔ r.containsName n = false := by
    rw [← Bool.not_eq_true, containsName_iff]
    push_neg
    rfl
  rw [ModuleRegistry.lookupIdx]
  by_cases hb : r.hasMap
  · rw [if_pos hb, mapLookup_eq_none_iff, hcontra]
  · rw [if_neg hb, linearLookup_eq_none_iff, hcontra]

theorem lookupIdx_congr {r r' : ModuleRegistry}
    (hnames : r.modules.map Module.name = r'.modules.map Module.name)
    (hmap : r.hasMap = r'.hasMap) (n : String) :
    r.lookupIdx n = r'.lookupIdx n := by
  rw [ModuleRegistry.lookupIdx, ModuleRegistry.lookupIdx, hmap,
    mapLookup_congr hnames, linearLookup_congr hnames]

theorem containsName_congr {r r' : ModuleRegistry}
    (hnames : r.modules.map Module.name = r'.modules.map Module.name) (n : String) :
    r.containsName n = r'.containsName n := by
  have : ∀ (ms : List Module), (ms.any fun m => m.name == n) = (ms.map Module.name).any (· == n) := by
    intro ms; induction ms with
    | nil => rfl
    | cons m rest ih => simp [ih]
  rw [ModuleRegistry.containsName, ModuleRegistry.containsName, this, this, hnames]

/-! ## Lemmas about registry mutation. -/

theorem map_modify_invar {α β : Type} (f : α → α) (g : α → β)
    (hfg : ∀ a, g (f a) = g a) (i : Nat) (l : List α) :
    (List.modify f i l).map g = l.map g := by
  induction l generalizing i with
  | nil => simp
  | cons x xs ih =>
      cases i with
      | zero => simp [List.modify_zero_cons, hfg]
      | succ j => simp [List.modify_succ_cons, ih]

theorem set_state_modules_names (r : ModuleRegistry) (n : String) (s : ModuleState) :
    ((r.set_state n s).1).modules.map Module.name = r.modules.map Module.name := by
  unfold ModuleRegistry.set_state
  cases h : r.lookupIdx n with
  | some i =>
      show (List.modify (fun m => { m with state := s }) i r.modules).map Module.name =
        r.modules.map Module.name
      exact map_modify_invar (fun m => { m with state := s }) Module.name (fun a => rfl) i
        r.modules
  | none => rfl

theorem set_state_hasMap (r : ModuleRegistry) (n : String) (s : ModuleState) :
    ((r.set_state n s).1).hasMap = r.hasMap := by
  unfold ModuleRegistry.set_state
  cases h : r.lookupIdx n <;> rfl

theorem set_state_containsName (r : ModuleRegistry) (n : String) (s : ModuleState) (n' : String) :
    ((r.set_state n s).1).containsName n' = r.containsName n' :=
  containsName_congr (set_state_modules_names r n s) n'

theorem set_state_lookupIdx (r : ModuleRegistry) (n : String) (s : ModuleState) (n' : String) :
    ((r.set_state n s).1).lookupIdx n' = r.lookupIdx n' :=
  lookupIdx_congr (set_state_modules_names r n s) (set_state_hasMap r n s) n'

theorem set_state_of_not_contains (r : ModuleRegistry) (n : String) (s : ModuleState)
    (hc : r.containsName n = false) : r.set_state n s = (r, false) := by
  unfold ModuleRegistry.set_state
  rw [lookupIdx_eq_none_iff.mpr hc]

theorem get_state_set_state (r : ModuleRegistry) (n n' : String) (s : ModuleState) :
    ((r.set_state n s).1).get_state n' =
      if n' = n ∧ r.containsName n = true then s else r.get_state n' := by
  by_cases hc : r.containsName n = true
  · cases hl : r.lookupIdx n with
    | none =>
        rw [lookupIdx_eq_none_iff] at hl
        rw [hl] at hc
        cases hc
    | some i =>
        have r1def : (r.set_state n s).1 =
            { r with modules := List.modify (fun m => { m with state := s }) i r.modules } := by
          unfold ModuleRegistry.set_state
          rw [hl]
        obtain ⟨m, hm, hname⟩ := lookupIdx_sound hl
        by_cases hnn : n' = n
        · rw [if_pos ⟨hnn, hc⟩]
          have hl1 : (r.set_state n s).1.lookupIdx n' = some i := by
            rw [set_state_lookupIdx, hnn]; exact hl
          unfold ModuleRegistry.get_state
          rw [hl1, r1def]
          have hval : (List.modify (fun m => { m with state := s }) i r.modules)[i]? =
              some { m with state := s } := by
            rw [List.getElem?_modify, hm]
            simp
          simp [hval]
        · rw [if_neg fun hx => hnn hx.1]
          have hl1 : (r.set_state n s).1.lookupIdx n' = r.lookupIdx n' :=
            set_state_lookupIdx r n s n'
          unfold ModuleRegistry.get_state
          rw [hl1, r1def]
          cases hl' : r.lookupIdx n' with
          | none => rfl
          | some j =>
              obtain ⟨m', hm', hname'⟩ := lookupIdx_sound hl'
              have hij : ¬ i = j := by
                intro h
                subst h
                rw [hm] at hm'
                cases hm'
                exact hnn (hname' ▸ hname ▸ rfl)
              have hval : (List.modify (fun m => { m with state := s }) i r.modules)[j]? =
                  some m' := by
                rw [List.getElem?_modify, hm']
                simp [if_neg hij]
              simp [hval, hm']
  · have hcf : r.containsName n = false := by
      revert hc; cases r.containsName n <;> simp
    have heq : (r.set_state n s).1 = r := by rw [set_state_of_not_contains r n s hcf]
    rw [heq, if_neg fun hx => hc hx.2]

theorem get_state_eq_disabled {r : ModuleRegistry} {n : String}
    (h : r.containsName n = false) : r.get_state n = ModuleState.Disabled := by
  have hl : r.lookupIdx n = none := lookupIdx_eq_none_iff.mpr h
  unfold ModuleRegistry.get_state
  rw [hl]

theorem get_state_mark_uncertain (l : List String) (r : ModuleRegistry) (n : String) :
    (r.mark_uncertain l).get_state n =
      if n ∈ l ∧ r.containsName n = true then ModuleState.Uncertain else r.get_state n := by
  induction l generalizing r with
  | nil => simp [ModuleRegistry.mark_uncertain]
  | cons x l' ih =>
      have step : r.mark_uncertain (x :: l') =
          ((r.set_state x ModuleState.Uncertain).1).mark_uncertain l' := rfl
      rw [step, ih, set_state_containsName]
      by_cases hmem : n ∈ l' ∧ r.containsName n = true
      · rw [if_pos hmem, if_pos ⟨List.mem_cons_of_mem _ hmem.1, hmem.2⟩]
      · rw [if_neg hmem, get_state_set_state]
        by_cases hx : n = x ∧ r.containsName x = true
        · rw [if_pos hx, if_pos ⟨hx.1 ▸ List.mem_cons_self x l', hx.1 ▸ hx.2⟩]
        · rw [if_neg hx, if_neg ?_]
          rintro ⟨hin, hcont⟩
          rcases List.mem_cons.mp hin with rfl | hin'
          · exact hx ⟨rfl, hcont⟩
          · exact hmem ⟨hin', hcont⟩

theorem mark_uncertain_modules_names (l : List String) (r : ModuleRegistry) :
    ((r.mark_uncertain l).modules.map Module.name) = r.modules.map Module.name := by
  induction l generalizing r with
  | nil => rfl
  | cons x l' ih =>
      have step : r.mark_uncertain (x :: l') =
          ((r.set_state x ModuleState.Uncertain).1).mark_uncertain l' := rfl
      rw [step, ih, set_state_modules_names]

theorem confirm_states_names (r : ModuleRegistry) (S : List String) :
    ((r.confirm_states S).modules.map Module.name) = r.modules.map Module.name := by
  simp only [ModuleRegistry.confirm_states, List.map_map]
  exact List.map_congr_left fun m _ => rfl

theorem confirm_states_mem_state (r : ModuleRegistry) (S : List String) :
    ∀ m' ∈ (r.confirm_states S).modules,
      m'.state = if S.contains m'.name then ModuleState.Enabled else ModuleState.Disabled := by
  intro m' hm'
  simp only [ModuleRegistry.confirm_states, List.mem_map] at hm'
  obtain ⟨m, _, rfl⟩ := hm'
  rfl

theorem get_state_confirm_states (r : ModuleRegistry) (S : List String) (n : String) :
    (r.confirm_states S).get_state n =
      if r.containsName n = true then
        (if S.contains n then ModuleState.Enabled else ModuleState.Disabled)
      else ModuleState.Disabled := by
  have hlk : (r.confirm_states S).lookupIdx n = r.lookupIdx n :=
    lookupIdx_congr (confirm_states_names r S) rfl n
  by_cases hc : r.containsName n = true
  · rw [if_pos hc]
    cases hl : r.lookupIdx n with
    | none =>
        rw [lookupIdx_eq_none_iff] at hl
        rw [hl] at hc
        cases hc
    | some i =>
        obtain ⟨m, hm, hname⟩ := lookupIdx_sound hl
        unfold ModuleRegistry.get_state
        rw [hlk, hl]
        have hval : (r.confirm_states S).modules[i]? =
            some { m with state := if S.contains m.name then ModuleState.Enabled
                                   else ModuleState.Disabled } := by
          simp only [ModuleRegistry.confirm_states]
          rw [List.getElem?_map, hm]
          rfl
        simp [hval, hname]
  · have hcf : r.containsName n = false := by
      revert hc; cases r.containsName n <;> simp
    rw [if_neg hc]
    have hl : r.lookupIdx n = none := lookupIdx_eq_none_iff.mpr hcf
    unfold ModuleRegistry.get_state
    rw [hlk, hl]

/-! ## Lemmas about the activation set and effective state. -/

theorem contains_iff_mem {l : List String} {a : String} : l.contains a = true ↔ a ∈ l :=
  List.elem_iff

theorem is_module_enabled_iff (f : ModuleFile) (n : String) :
    f.is_module_enabled n = true ↔ n ∈ f.active_modules := by
  show (f.active_modules.any fun name => name == n) = true ↔ _
  rw [List.any_eq_true]
  constructor
  · rintro ⟨x, hx, hbeq⟩
    exact eq_of_beq hbeq ▸ hx
  · intro h
    exact ⟨n, h, by simp⟩

theorem get_effective_state_eq (mgr : ModuleManager) (n : String) :
    mgr.get_effective_state n =
      if mgr.registry.get_state n = ModuleState.Uncertain then ModuleState.Uncertain
      else if mgr.module_file.is_module_enabled n then ModuleState.Enabled
      else ModuleState.Disabled := rfl

theorem effective_enabled_is_member {mgr : ModuleManager} {n : String}
    (h : mgr.get_effective_state n = ModuleState.Enabled) :
    mgr.module_file.is_module_enabled n = true := by
  rw [get_effective_state_eq] at h
  by_cases hu : mgr.registry.get_state n = ModuleState.Uncertain
  · rw [if_pos hu] at h
    cases h
  · rw [if_neg hu] at h
    by_cases hm : mgr.module_file.is_module_enabled n
    · exact hm
    · rw [if_neg hm] at h
      cases h

/-! ## Claim C1. -/

/-- C1: the engine's effective state is computed exactly as the
specification's algorithm dictates: `Uncertain` whenever the catalog's stored
state is `Uncertain` (regardless of activation-set membership), otherwise
`Enabled` iff the activation set contains the name, otherwise `Disabled`. -/
theorem effective_state_matches_spec (mgr : ModuleManager) (n : String) :
    mgr.get_effective_state n =
      effectiveStateSpec (mgr.registry.get_state n) (mgr.module_file.is_module_enabled n) := rfl

/-! ## Claim C2. -/

/-- C2: after `confirm_states S` every module named in `S` stores `Enabled`
and every other module stores `Disabled` (in particular nothing stores
`Uncertain`), and when the activation set equals `S` the effective state of
every name in the catalog is `Enabled` iff the name is in `S`, else
`Disabled`. -/
theorem confirm_states_authoritative (r : ModuleRegistry) (S : List String) :
    (∀ m' ∈ (r.confirm_states S).modules,
      (m'.state = if S.contains m'.name then ModuleState.Enabled else ModuleState.Disabled) ∧
        m'.state ≠ ModuleState.Uncertain) ∧
    (∀ n, r.containsName n = true →
      (ModuleManager.mk (r.confirm_states S) (ModuleFile.mk S)).get_effective_state n =
        if S.contains n then ModuleState.Enabled else ModuleState.Disabled) := by
  constructor
  · intro m' hm'
    have hst := confirm_states_mem_state r S m' hm'
    refine ⟨hst, ?_⟩
    rw [hst]
    by_cases hS : S.contains m'.name
    · rw [if_pos hS]
      intro h
      cases h
    · rw [if_neg hS]
      intro h
      cases h
  · intro n hc
    have hs : (r.confirm_states S).get_state n =
        if S.contains n then ModuleState.Enabled else ModuleState.Disabled := by
      rw [get_state_confirm_states, if_pos hc]
    rw [get_effective_state_eq]
    by_cases hS : S.contains n = true
    · have hmem : (ModuleFile.mk S).is_module_enabled n = true :=
        (is_module_enabled_iff _ _).mpr (contains_iff_mem.mp hS)
      simp only [hs, if_pos hS]
      simp [hmem]
    · have hmem : ¬ ((ModuleFile.mk S).is_module_enabled n = true) := by
        intro h
        exact hS (contains_iff_mem.mpr ((is_module_enabled_iff _ _).mp h))
      simp only [hs, if_neg hS]
      simp [hmem]

/-- Witness for C2 on a concrete catalog `{test1, test2}` confirmed with
`S = [test1]`. -/
theorem confirm_states_authoritative_witness :
    (ModuleManager.mk
        ((ModuleRegistry.mk
          [⟨"test1", "/nix/store/t1.nix", "", ModuleState.Uncertain⟩,
           ⟨"test2", "/nix/store/t2.nix", "", ModuleState.Enabled⟩] true).confirm_states
          ["test1"])
        (ModuleFile.mk ["test1"])).get_effective_state "test2" =
      ModuleState.Disabled := by
  have h := (confirm_states_authoritative
    (ModuleRegistry.mk
      [⟨"test1", "/nix/store/t1.nix", "", ModuleState.Uncertain⟩,
       ⟨"test2", "/nix/store/t2.nix", "", ModuleState.Enabled⟩] true)
    ["test1"]).2 "test2" (by decide)
  rw [h]
  decide

/-! ## Claim C3. -/

/-- C3: when the external applier fails, the engine marks every name of the
current activation set (that the catalog knows) `Uncertain`, persists exactly
the marked catalog, and the operation's result is the apply error even though
the catalog write succeeded. -/
theorem apply_failure_marks_uncertain (mgr : ModuleManager) :
    ((mgr.apply_changes ⟨true, false, true⟩).2.2 = Except.error AppError.applyFailure) ∧
    ((mgr.apply_changes ⟨true, false, true⟩).2.1.savedRegistry =
      some (mgr.apply_changes ⟨true, false, true⟩).1.registry) ∧
    ((mgr.apply_changes ⟨true, false, true⟩).2.1.applierInvoked = true) ∧
    (∀ n ∈ mgr.module_file.active_modules, mgr.registry.containsName n = true →
      (mgr.apply_changes ⟨true, false, true⟩).1.registry.get_state n =
        ModuleState.Uncertain) := by
  have happ : mgr.apply_changes ⟨true, false, true⟩ =
      ({ mgr with registry := mgr.registry.mark_uncertain mgr.module_file.active_modules },
        { savedModuleFile := some (mgr.module_file.generate_content mgr.registry),
          savedRegistry := some (mgr.registry.mark_uncertain mgr.module_file.active_modules),
          applierInvoked := true },
        Except.error AppError.applyFailure) := rfl
  rw [happ]
  refine ⟨rfl, rfl, rfl, ?_⟩
  intro n hn hc
  show (mgr.registry.mark_uncertain mgr.module_file.active_modules).get_state n =
    ModuleState.Uncertain
  rw [get_state_mark_uncertain, if_pos ⟨hn, hc⟩]

/-- Witness for C3: a failing apply over activation set `["a"]` leaves `a`
`Uncertain`. -/
theorem apply_failure_marks_uncertain_witness :
    ((ModuleManager.mk
        (ModuleRegistry.mk [⟨"a", "/nix/store/a.nix", "", ModuleState.Enabled⟩] true)
        (ModuleFile.mk ["a"])).apply_changes ⟨true, false, true⟩).1.registry.get_state "a" =
      ModuleState.Uncertain :=
  (apply_failure_marks_uncertain
    (ModuleManager.mk
      (ModuleRegistry.mk [⟨"a", "/nix/store/a.nix", "", ModuleState.Enabled⟩] true)
      (ModuleFile.mk ["a"]))).2.2.2 "a" (by decide) (by decide)

/-! ## Claim C4. -/

/-- C4: the descriptor artifact is written before any catalog persist: when
the descriptor write fails the apply step aborts with an IO error, the
persisted catalog is untouched, the in-memory registry is unchanged and the
applier is never invoked; and in every run a catalog persist implies the
descriptor was written first. -/
theorem descriptor_write_failure_aborts (mgr : ModuleManager) (env : ApplyEnv) :
    (env.fileWriteOk = false →
      mgr.apply_changes env =
        (mgr, { savedModuleFile := none, savedRegistry := none, applierInvoked := false },
          Except.error AppError.ioDescriptor)) ∧
    ((mgr.apply_changes env).2.1.savedRegistry.isSome = true →
      (mgr.apply_changes env).2.1.savedModuleFile.isSome = true) := by
  obtain ⟨fw, ap, rg⟩ := env
  cases fw with
  | false =>
      constructor
      · intro _
        rfl
      · intro h
        cases h
  | true =>
      constructor
      · intro h
        cases h
      · cases ap <;> cases rg <;> intro _ <;> rfl

/-- Witness for C4: a concrete run with a failing descriptor write. -/
theorem descriptor_write_failure_aborts_witness :
    (ModuleManager.mk
        (ModuleRegistry.mk [⟨"a", "/nix/store/a.nix", "", ModuleState.Disabled⟩] true)
        (ModuleFile.mk ["a"])).apply_changes ⟨false, true, true⟩ =
      (ModuleManager.mk
        (ModuleRegistry.mk [⟨"a", "/nix/store/a.nix", "", ModuleState.Disabled⟩] true)
        (ModuleFile.mk ["a"]),
        { savedModuleFile := none, savedRegistry := none, applierInvoked := false },
        Except.error AppError.ioDescriptor) :=
  (descriptor_write_failure_aborts
    (ModuleManager.mk
      (ModuleRegistry.mk [⟨"a", "/nix/store/a.nix", "", ModuleState.Disabled⟩] true)
      (ModuleFile.mk ["a"])) ⟨false, true, true⟩).1 rfl

/-! ## Claim C8. -/

/-- C8: `get_state` is total and returns `Disabled` for every name that no
module of the catalog carries. -/
theorem get_state_unknown_disabled (r : ModuleRegistry) (n : String)
    (h : r.containsName n = false) : r.get_state n = ModuleState.Disabled :=
  get_state_eq_disabled h

/-- Witness for C8 on a concrete catalog and an unknown name. -/
theorem get_state_unknown_disabled_witness :
    (ModuleRegistry.mk [⟨"m1", "/nix/store/m1.nix", "", ModuleState.Enabled⟩] true).containsName
        "ghost" = false ∧
    (ModuleRegistry.mk [⟨"m1", "/nix/store/m1.nix", "", ModuleState.Enabled⟩] true).get_state
        "ghost" = ModuleState.Disabled :=
  ⟨by decide,
    get_state_unknown_disabled
      (ModuleRegistry.mk [⟨"m1", "/nix/store/m1.nix", "", ModuleState.Enabled⟩] true) "ghost"
      (by decide)⟩

/-! ## Claim C9. -/

theorem mapLookup_eq_linearLookup_of_nodup {ms : List Module}
    (h : (ms.map Module.name).Nodup) (n : String) :
    mapLookup ms n = linearLookup ms n := by
  induction ms with
  | nil => rfl
  | cons m rest ih =>
      rw [List.map_cons, List.nodup_cons] at h
      rw [mapLookup, linearLookup]
      by_cases hn : m.name = n
      · have hnone : mapLookup rest n = none := by
          rw [mapLookup_eq_none_iff]
          intro m' hm' heq
          exact h.1 (hn ▸ heq ▸ List.mem_map_of_mem Module.name hm')
        rw [hnone, if_pos hn, if_pos hn]
      · rw [ih h.2]
        simp only [if_neg hn]
        cases linearLookup rest n <;> rfl

/-- C9: on a catalog with unique module names, each lookup operation
(`get_state`, `get_module_path`, `set_state`) behaves identically whether the
name→index map is initialized (`hasMap = true`) or the linear-scan fallback is
taken (`hasMap = false`). -/
theorem lookup_paths_equivalent (ms : List Module) (n : String) (s : ModuleState)
    (h : (ms.map Module.name).Nodup) :
    (ModuleRegistry.mk ms true).get_state n = (ModuleRegistry.mk ms false).get_state n ∧
    (ModuleRegistry.mk ms true).get_module_path n =
      (ModuleRegistry.mk ms false).get_module_path n ∧
    ((ModuleRegistry.mk ms true).set_state n s).1.modules =
      ((ModuleRegistry.mk ms false).set_state n s).1.modules ∧
    ((ModuleRegistry.mk ms true).set_state n s).2 =
      ((ModuleRegistry.mk ms false).set_state n s).2 := by
  have hL : (ModuleRegistry.mk ms true).lookupIdx n = (ModuleRegistry.mk ms false).lookupIdx n := by
    show mapLookup ms n = linearLookup ms n
    exact mapLookup_eq_linearLookup_of_nodup h n
  refine ⟨?_, ?_, ?_, ?_⟩
  · unfold ModuleRegistry.get_state
    rw [hL]
  · unfold ModuleRegistry.get_module_path
    rw [hL]
  · unfold ModuleRegistry.set_state
    rw [hL]
    cases (ModuleRegistry.mk ms false).lookupIdx n <;> rfl
  · unfold ModuleRegistry.set_state
    rw [hL]
    cases (ModuleRegistry.mk ms false).lookupIdx n <;> rfl

/-- Witness for C9 on a concrete two-module catalog. -/
theorem lookup_paths_equivalent_witness :
    (ModuleRegistry.mk
        [⟨"x", "/nix/store/x.nix", "", ModuleState.Disabled⟩,
         ⟨"y", "/nix/store/y.nix", "", ModuleState.Enabled⟩] true).get_state "y" =
      (ModuleRegistry.mk
        [⟨"x", "/nix/store/x.nix", "", ModuleState.Disabled⟩,
         ⟨"y", "/nix/store/y.nix", "", ModuleState.Enabled⟩] false).get_state "y" :=
  (lookup_paths_equivalent
    [⟨"x", "/nix/store/x.nix", "", ModuleState.Disabled⟩,
     ⟨"y", "/nix/store/y.nix", "", ModuleState.Enabled⟩] "y" ModuleState.Uncertain (by decide)).1

/-! ## Claim C10. -/

theorem sync_fold_get_state (l : List String) (r : ModuleRegistry) (n : String) :
    (l.foldl (fun r module =>
        if r.get_state module ≠ ModuleState.Uncertain then
          (r.set_state module ModuleState.Enabled).1
        else r) r).get_state n =
      if n ∈ l ∧ r.containsName n = true then
        (if r.get_state n = ModuleState.Uncertain then ModuleState.Uncertain
         else ModuleState.Enabled)
      else r.get_state n := by
  induction l generalizing r with
  | nil => simp
  | cons x l' ih =>
      rw [List.foldl_cons, ih]
      by_cases hx : r.get_state x = ModuleState.Uncertain
      · have hstep : (if r.get_state x ≠ ModuleState.Uncertain then
            (r.set_state x ModuleState.Enabled).1 else r) = r := if_neg (not_not_intro hx)
        rw [hstep]
        by_cases hn : n = x
        · by_cases hc : r.containsName n = true
          · have hgn : r.get_state n = ModuleState.Uncertain := by rw [hn]; exact hx
            have hmem : n ∈ x :: l' := by rw [hn]; exact List.mem_cons_self x l'
            rw [if_pos (⟨hmem, hc⟩ : n ∈ x :: l' ∧ r.containsName n = true), if_pos hgn]
            by_cases hl : n ∈ l'
            · rw [if_pos (⟨hl, hc⟩ : n ∈ l' ∧ r.containsName n = true)]
            · rw [if_neg (show ¬ (n ∈ l' ∧ r.containsName n = true) by
                rintro ⟨h1, _⟩; exact hl h1)]
              exact hgn
          · rw [if_neg (show ¬ (n ∈ l' ∧ r.containsName n = true) by
                rintro ⟨_, h2⟩; exact hc h2),
              if_neg (show ¬ (n ∈ x :: l' ∧ r.containsName n = true) by
                rintro ⟨_, h2⟩; exact hc h2)]
        · have hiff : (n ∈ x :: l') ↔ (n ∈ l') := by
            rw [List.mem_cons]
            exact ⟨fun h => h.resolve_left hn, Or.inr⟩
          by_cases hcond : n ∈ l' ∧ r.containsName n = true
          · rw [if_pos hcond,
              if_pos (⟨hiff.mpr hcond.1, hcond.2⟩ : n ∈ x :: l' ∧ r.containsName n = true)]
          · rw [if_neg hcond, if_neg (show ¬ (n ∈ x :: l' ∧ r.containsName n = true) by
              rintro ⟨h1, h2⟩; exact hcond ⟨hiff.mp h1, h2⟩)]
      · have hstep : (if r.get_state x ≠ ModuleState.Uncertain then
            (r.set_state x ModuleState.Enabled).1 else r) =
              (r.set_state x ModuleState.Enabled).1 := if_pos hx
        rw [hstep, set_state_containsName, get_state_set_state]
        by_cases hc : r.containsName n = true
        · by_cases hn : n = x
          · have hcx : r.containsName x = true := by rw [← hn]; exact hc
            have hset : (if n = x ∧ r.containsName x = true then ModuleState.Enabled
                else r.get_state n) = ModuleState.Enabled := if_pos ⟨hn, hcx⟩
            have hgn : ¬ r.get_state n = ModuleState.Uncertain := by rw [hn]; exact hx
            have hmem : n ∈ x :: l' := by rw [hn]; exact List.mem_cons_self x l'
            rw [hset, if_pos (⟨hmem, hc⟩ : n ∈ x :: l' ∧ r.containsName n = true), if_neg hgn]
            by_cases hl : n ∈ l'
            · rw [if_pos (⟨hl, hc⟩ : n ∈ l' ∧ r.containsName n = true)]
              rfl
            · rw [if_neg (show ¬ (n ∈ l' ∧ r.containsName n = true) by
                rintro ⟨h1, _⟩; exact hl h1)]
          · have hset : (if n = x ∧ r.containsName x = true then ModuleState.Enabled
                else r.get_state n) = r.get_state n := if_neg (by rintro ⟨h1, _⟩; exact hn h1)
            rw [hset]
            have hiff : (n ∈ x :: l') ↔ (n ∈ l') := by
              rw [List.mem_cons]
              exact ⟨fun h => h.resolve_left hn, Or.inr⟩
            by_cases hl : n ∈ l'
            · rw [if_pos (⟨hl, hc⟩ : n ∈ l' ∧ r.containsName n = true),
                if_pos (⟨hiff.mpr hl, hc⟩ : n ∈ x :: l' ∧ r.containsName n = true)]
            · rw [if_neg (show ¬ (n ∈ l' ∧ r.containsName n = true) by
                rintro ⟨h1, _⟩; exact hl h1),
                if_neg (show ¬ (n ∈ x :: l' ∧ r.containsName n = true) by
                rintro ⟨h1, _⟩; exact hl (hiff.mp h1))]
        · have hset : (if n = x ∧ r.containsName x = true then ModuleState.Enabled
              else r.get_state n) = r.get_state n := by
            refine if_neg ?_
            rintro ⟨h1, h2⟩
            rw [h1] at hc
            exact hc h2
          rw [hset, if_neg (show ¬ (n ∈ l' ∧ r.containsName n = true) by
              rintro ⟨_, h2⟩; exact hc h2),
            if_neg (show ¬ (n ∈ x :: l' ∧ r.containsName n = true) by
              rintro ⟨_, h2⟩; exact hc h2)]

/-- C10: right after construction (load followed by
`sync_registry_with_module_file`), a name in the activation set that the
catalog knows stores `Uncertain` if its loaded state was `Uncertain` and
`Enabled` otherwise, while every other name keeps its loaded state. -/
theorem sync_sets_active_enabled_or_uncertain (mgr : ModuleManager) (n : String) :
    (mgr.sync_registry_with_module_file).registry.get_state n =
      if mgr.module_file.is_module_enabled n = true ∧ mgr.registry.containsName n = true then
        (if mgr.registry.get_state n = ModuleState.Uncertain then ModuleState.Uncertain
         else ModuleState.Enabled)
      else mgr.registry.get_state n := by
  show (mgr.module_file.active_modules.foldl (fun r module =>
      if r.get_state module ≠ ModuleState.Uncertain then
        (r.set_state module ModuleState.Enabled).1
      else r) mgr.registry).get_state n = _
  rw [sync_fold_get_state]
  by_cases hm : n ∈ mgr.module_file.active_modules
  · have hen : mgr.module_file.is_module_enabled n = true := (is_module_enabled_iff _ _).mpr hm
    by_cases hc : mgr.registry.containsName n = true
    · rw [if_pos
          (⟨hm, hc⟩ : n ∈ mgr.module_file.active_modules ∧ mgr.registry.containsName n = true),
        if_pos (⟨hen, hc⟩ :
          mgr.module_file.is_module_enabled n = true ∧ mgr.registry.containsName n = true)]
    · rw [if_neg (show ¬ (n ∈ mgr.module_file.active_modules ∧
            mgr.registry.containsName n = true) by rintro ⟨_, h2⟩; exact hc h2),
        if_neg (show ¬ (mgr.module_file.is_module_enabled n = true ∧
            mgr.registry.containsName n = true) by rintro ⟨_, h2⟩; exact hc h2)]
  · have hen : ¬ (mgr.module_file.is_module_enabled n = true) := fun h =>
      hm ((is_module_enabled_iff _ _).mp h)
    rw [if_neg (show ¬ (n ∈ mgr.module_file.active_modules ∧
          mgr.registry.containsName n = true) by rintro ⟨h1, _⟩; exact hm h1),
      if_neg (show ¬ (mgr.module_file.is_module_enabled n = true ∧
          mgr.registry.containsName n = true) by rintro ⟨h1, _⟩; exact hen h1)]

/-! ## Claim C6. -/

theorem enableStep_eq (f : ModuleFile) (c : Bool) (m : String) :
    enableStep (f, c) m =
      if f.is_module_enabled m then (f, c)
      else ({ active_modules := f.active_modules ++ [m] }, true) := rfl

theorem enableScanStep_eq (file : ModuleFile) (r : ModuleRegistry) (c : Bool) (m : String) :
    enableScanStep file (r, c) m =
      match ModuleManager.get_effective_state ⟨r, file⟩ m with
      | ModuleState.Enabled => (r, c)
      | ModuleState.Uncertain => (r, true)
      | ModuleState.Disabled => ((r.set_state m ModuleState.Uncertain).1, true) := rfl

theorem enableScan_no_change (file : ModuleFile) (r : ModuleRegistry) (b : Bool) :
    ∀ mods : List String,
      (∀ m ∈ mods, ModuleManager.get_effective_state ⟨r, file⟩ m = ModuleState.Enabled) →
      enableScan file mods (r, b) = (r, b) := by
  intro mods
  induction mods with
  | nil => intro _; rfl
  | cons x ms ih =>
      intro h
      show enableScan file ms (enableScanStep file (r, b) x) = (r, b)
      rw [enableScanStep_eq, h x (List.mem_cons_self x ms)]
      exact ih fun m hm => h m (List.mem_cons_of_mem x hm)

theorem enable_fold_fixed (f : ModuleFile) (b : Bool) :
    ∀ mods : List String, (∀ m ∈ mods, f.is_module_enabled m = true) →
      mods.foldl enableStep (f, b) = (f, b) := by
  intro mods
  induction mods with
  | nil => intro _; rfl
  | cons x ms ih =>
      intro h
      rw [List.foldl_cons, enableStep_eq, if_pos (h x (List.mem_cons_self x ms))]
      exact ih fun m hm => h m (List.mem_cons_of_mem x hm)

/-- C6: `enable(names, force = false)` when every requested name's effective
state is already `Enabled` is a pure no-op: no descriptor or catalog write,
no applier invocation, the in-memory state unchanged, and `changed = false`
is returned. -/
theorem enable_already_enabled_noop (mgr : ModuleManager) (modules : List String) (env : ApplyEnv)
    (h : ∀ m ∈ modules, mgr.get_effective_state m = ModuleState.Enabled) :
    mgr.enable_modules modules false env =
      (mgr, { savedModuleFile := none, savedRegistry := none, applierInvoked := false },
        Except.ok false) := by
  have hscan : enableScan mgr.module_file modules (mgr.registry, false) =
      (mgr.registry, false) :=
    enableScan_no_change mgr.module_file mgr.registry false modules h
  have hfile : mgr.module_file.enable_modules modules = (mgr.module_file, false) :=
    enable_fold_fixed mgr.module_file false modules
      fun m hm => effective_enabled_is_member (h m hm)
  show (let scanned := enableScan mgr.module_file modules (mgr.registry, false)
    let fileRes := mgr.module_file.enable_modules modules
    let changes := scanned.2 || fileRes.2
    let mgr1 : ModuleManager := { registry := scanned.1, module_file := fileRes.1 }
    if changes || false then
      match mgr1.apply_changes env with
      | (mgr2, t, Except.ok ()) => (mgr2, t, Except.ok changes)
      | (mgr2, t, Except.error e) => (mgr2, t, Except.error e)
    else
      (mgr1, { savedModuleFile := none, savedRegistry := none, applierInvoked := false },
        Except.ok changes)) = _
  rw [hscan, hfile]
  rfl

/-- Witness for C6: enabling an already-enabled module with `force = false`
is a no-op. -/
theorem enable_already_enabled_noop_witness :
    (ModuleManager.mk
        (ModuleRegistry.mk [⟨"a", "/nix/store/a.nix", "", ModuleState.Enabled⟩] true)
        (ModuleFile.mk ["a"])).enable_modules ["a"] false ⟨true, true, true⟩ =
      (ModuleManager.mk
        (ModuleRegistry.mk [⟨"a", "/nix/store/a.nix", "", ModuleState.Enabled⟩] true)
        (ModuleFile.mk ["a"]),
        { savedModuleFile := none, savedRegistry := none, applierInvoked := false },
        Except.ok false) :=
  enable_already_enabled_noop
    (ModuleManager.mk
      (ModuleRegistry.mk [⟨"a", "/nix/store/a.nix", "", ModuleState.Enabled⟩] true)
      (ModuleFile.mk ["a"])) ["a"] ⟨true, true, true⟩ (by decide)

/-! ## Claim C7. -/

theorem enable_fold_nodup :
    ∀ (mods : List String) (f : ModuleFile) (b : Bool), f.active_modules.Nodup →
      ((mods.foldl enableStep (f, b)).1).active_modules.Nodup := by
  intro mods
  induction mods with
  | nil => intro f b h; exact h
  | cons x ms ih =>
      intro f b h
      rw [List.foldl_cons, enableStep_eq]
      by_cases hx : f.is_module_enabled x = true
      · rw [if_pos hx]
        exact ih f b h
      · rw [if_neg hx]
        apply ih
        show (f.active_modules ++ [x]).Nodup
        have hxm : x ∉ f.active_modules := fun hm => hx ((is_module_enabled_iff f x).mpr hm)
        rw [List.nodup_append]
        exact ⟨h, List.nodup_singleton x, List.disjoint_singleton.mpr hxm⟩

theorem disable_modules_nodup (f : ModuleFile) (mods : List String)
    (h : f.active_modules.Nodup) : ((f.disable_modules mods).1).active_modules.Nodup := by
  show (f.active_modules.filter _).Nodup
  exact h.filter _

theorem applyFileOps_nodup :
    ∀ (ops : List FileOp) (f : ModuleFile), f.active_modules.Nodup →
      (applyFileOps f ops).active_modules.Nodup := by
  intro ops
  induction ops with
  | nil => intro f h; exact h
  | cons op ops ih =>
      intro f h
      show (applyFileOps (applyFileOp f op) ops).active_modules.Nodup
      apply ih
      cases op with
      | add names => exact enable_fold_nodup names f false h
      | remove names => exact disable_modules_nodup f names h

theorem enable_count_one (f : ModuleFile) (a b : String) (h : f.active_modules.Nodup) :
    ((f.enable_modules [a, a, b]).1).active_modules.count a = 1 := by
  show ((([a, a, b].foldl enableStep (f, false))).1).active_modules.count a = 1
  rw [List.foldl_cons, List.foldl_cons, List.foldl_cons, List.foldl_nil]
  by_cases ha : f.is_module_enabled a = true
  · have e1 : enableStep (f, false) a = (f, false) := by
      rw [enableStep_eq, if_pos ha]
    rw [e1, e1]
    have hmem : a ∈ f.active_modules := (is_module_enabled_iff f a).mp ha
    by_cases hb : f.is_module_enabled b = true
    · have e3 : enableStep (f, false) b = (f, false) := by
        rw [enableStep_eq, if_pos hb]
      rw [e3]
      exact List.count_eq_one_of_mem h hmem
    · have e3 : enableStep (f, false) b =
          ({ active_modules := f.active_modules ++ [b] }, true) := by
        rw [enableStep_eq, if_neg hb]
      rw [e3]
      show (f.active_modules ++ [b]).count a = 1
      have hba : ¬ (b == a) = true := by
        intro hbeq
        exact hb (eq_of_beq hbeq ▸ ha)
      rw [List.count_append, List.count_singleton, if_neg hba,
        List.count_eq_one_of_mem h hmem]
  · have e1 : enableStep (f, false) a =
        ({ active_modules := f.active_modules ++ [a] }, true) := by
      rw [enableStep_eq, if_neg ha]
    rw [e1]
    have hmem1 : a ∈ f.active_modules ++ [a] := by simp
    have ha1 : ({ active_modules := f.active_modules ++ [a] } : ModuleFile).is_module_enabled a =
        true := (is_module_enabled_iff _ _).mpr hmem1
    have e2 : enableStep ({ active_modules := f.active_modules ++ [a] }, true) a =
        ({ active_modules := f.active_modules ++ [a] }, true) := by
      rw [enableStep_eq, if_pos ha1]
    rw [e2]
    have hnm : a ∉ f.active_modules := fun hm => ha ((is_module_enabled_iff f a).mpr hm)
    have hcount1 : (f.active_modules ++ [a]).count a = 1 := by
      rw [List.count_append, List.count_eq_zero_of_not_mem hnm, List.count_singleton]
      simp
    by_cases hb : ({ active_modules := f.active_modules ++ [a] } : ModuleFile).is_module_enabled b
        = true
    · have e3 : enableStep ({ active_modules := f.active_modules ++ [a] }, true) b =
          ({ active_modules := f.active_modules ++ [a] }, true) := by
        rw [enableStep_eq, if_pos hb]
      rw [e3]
      exact hcount1
    · have e3 : enableStep ({ active_modules := f.active_modules ++ [a] }, true) b =
          ({ active_modules := (f.active_modules ++ [a]) ++ [b] }, true) := by
        rw [enableStep_eq, if_neg hb]
      rw [e3]
      show ((f.active_modules ++ [a]) ++ [b]).count a = 1
      have hba : ¬ (b == a) = true := by
        intro hbeq
        exact hb (eq_of_beq hbeq ▸ ha1)
      rw [List.count_append, List.count_singleton, if_neg hba, hcount1]

/-- C7: the activation set never accumulates duplicates: any sequence of
`add_all` / `remove_all` operations starting from a duplicate-free set yields
a duplicate-free set, and `add_all [a, a, b]` leaves `a` stored exactly
once. -/
theorem activation_set_no_duplicates (f : ModuleFile) (h : f.active_modules.Nodup) :
    (∀ ops : List FileOp, (applyFileOps f ops).active_modules.Nodup) ∧
    (∀ a b : String, ((f.enable_modules [a, a, b]).1).active_modules.count a = 1) :=
  ⟨fun ops => applyFileOps_nodup ops f h, fun a b => enable_count_one f a b h⟩

/-- Witness for C7 on a concrete activation set. -/
theorem activation_set_no_duplicates_witness :
    (applyFileOps (ModuleFile.mk ["m"])
      [FileOp.add ["x", "m"], FileOp.remove ["m"]]).active_modules.Nodup ∧
    (((ModuleFile.mk ["m"]).enable_modules ["x", "x", "y"]).1).active_modules.count "x" = 1 :=
  ⟨((activation_set_no_duplicates (ModuleFile.mk ["m"]) (by decide)).1
      [FileOp.add ["x", "m"], FileOp.remove ["m"]]),
    (activation_set_no_duplicates (ModuleFile.mk ["m"]) (by decide)).2 "x" "y"⟩

/-! ## Claim C5: string-level lemmas. -/

theorem splitLines_append (xs : List Char) (ys : List Char) (h : '\n' ∉ xs) :
    splitLines (xs ++ '\n' :: ys) = xs :: splitLines ys := by
  induction xs with
  | nil =>
      show splitLines ('\n' :: ys) = [] :: splitLines ys
      rw [splitLines]
      rw [if_pos rfl]
  | cons c cs ih =>
      have hc : ¬ c = '\n' := fun hcc => h (hcc ▸ List.mem_cons_self c cs)
      have hcs : '\n' ∉ cs := fun hm => h (List.mem_cons_of_mem c hm)
      show splitLines (c :: (cs ++ '\n' :: ys)) = (c :: cs) :: splitLines ys
      rw [splitLines, if_neg hc, ih hcs]

theorem startsWithSeq_self_append (p r : List Char) : startsWithSeq p (p ++ r) = true := by
  induction p with
  | nil => rfl
  | cons c cs ih =>
      show (c = c && startsWithSeq cs (cs ++ r)) = true
      rw [ih]
      simp

theorem startsWithSeq_append {p l : List Char} (r : List Char)
    (h : startsWithSeq p l = true) : startsWithSeq p (l ++ r) = true := by
  induction p generalizing l with
  | nil => rfl
  | cons c cs ih =>
      cases l with
      | nil => cases h
      | cons x xs =>
          rw [startsWithSeq, Bool.and_eq_true] at h
          show startsWithSeq (c :: cs) (x :: (xs ++ r)) = true
          rw [startsWithSeq, Bool.and_eq_true]
          exact ⟨h.1, ih h.2⟩

theorem containsSeq_nil_pat (l : List Char) : containsSeq [] l = true := by
  cases l with
  | nil => rfl
  | cons c cs =>
      rw [containsSeq]
      show (startsWithSeq [] (c :: cs) || containsSeq [] cs) = true
      rw [show startsWithSeq [] (c :: cs) = true from rfl]
      simp

theorem containsSeq_of_startsWith {pat l : List Char} (h : startsWithSeq pat l = true) :
    containsSeq pat l = true := by
  cases l with
  | nil =>
      cases pat with
      | nil => rfl
      | cons c cs => cases h
  | cons c cs =>
      rw [containsSeq, h]
      simp

theorem containsSeq_append_right {pat r : List Char} (l : List Char)
    (h : containsSeq pat r = true) : containsSeq pat (l ++ r) = true := by
  induction l with
  | nil => exact h
  | cons c cs ih =>
      show containsSeq pat (c :: (cs ++ r)) = true
      rw [containsSeq, ih]
      simp

theorem containsSeq_append_left {pat l : List Char} (r : List Char)
    (h : containsSeq pat l = true) : containsSeq pat (l ++ r) = true := by
  induction l with
  | nil =>
      have hpat : pat = [] := by
        cases pat with
        | nil => rfl
        | cons c cs => cases h
      rw [hpat]
      exact containsSeq_nil_pat r
  | cons c cs ih =>
      rw [containsSeq, Bool.or_eq_true] at h
      show containsSeq pat (c :: (cs ++ r)) = true
      rw [containsSeq, Bool.or_eq_true]
      cases h with
      | inl hs => exact Or.inl (startsWithSeq_append r hs)
      | inr hcont => exact Or.inr (ih hcont)

theorem findCharIdx_append {c : Char} {xs : List Char} (ys : List Char) (h : c ∉ xs) :
    findCharIdx c (xs ++ c :: ys) = some xs.length := by
  induction xs with
  | nil =>
      show findCharIdx c (c :: ys) = some 0
      rw [findCharIdx, if_pos rfl]
  | cons x xs ih =>
      have hx : ¬ x = c := fun hxc => h (hxc ▸ List.mem_cons_self x xs)
      have hxs : c ∉ xs := fun hm => h (List.mem_cons_of_mem x hm)
      show findCharIdx c (x :: (xs ++ c :: ys)) = some (xs.length + 1)
      rw [findCharIdx, if_neg hx, ih hxs]
      rfl

theorem dropWhile_eq_self_of_trim {m : List Char} (h : trimChars m = m) :
    m.dropWhile isRustWhitespace = m := by
  have hsuf1 : m.dropWhile isRustWhitespace <:+ m := List.dropWhile_suffix _
  have hsuf2 : (m.dropWhile isRustWhitespace).reverse.dropWhile isRustWhitespace <:+
      (m.dropWhile isRustWhitespace).reverse := List.dropWhile_suffix _
  have hlen : (trimChars m).length = m.length := by rw [h]
  have hlen2 :
      ((m.dropWhile isRustWhitespace).reverse.dropWhile isRustWhitespace).length =
        m.length := by
    rw [trimChars, List.length_reverse] at hlen
    exact hlen
  have hle1 : (m.dropWhile isRustWhitespace).length ≤ m.length := hsuf1.length_le
  have hle2 :
      ((m.dropWhile isRustWhitespace).reverse.dropWhile isRustWhitespace).length ≤
        (m.dropWhile isRustWhitespace).length := by
    have := hsuf2.length_le
    rwa [List.length_reverse] at this
  have hlen1 : (m.dropWhile isRustWhitespace).length = m.length :=
    le_antisymm hle1 (hlen2 ▸ hle2)
  exact hsuf1.eq_of_length hlen1

theorem dropWhile_reverse_eq_self_of_trim {m : List Char} (h : trimChars m = m) :
    m.reverse.dropWhile isRustWhitespace = m.reverse := by
  have h1 : m.dropWhile isRustWhitespace = m := dropWhile_eq_self_of_trim h
  have h2 : trimChars m = (m.reverse.dropWhile isRustWhitespace).reverse := by
    rw [trimChars, h1]
  rw [h] at h2
  have := congrArg List.reverse h2
  rwa [List.reverse_reverse, eq_comm] at this

theorem dropWhile_append_of_head_false {q : Char → Bool} {a : List Char} (b : List Char)
    (ha : a ≠ []) (hd : a.dropWhile q = a) : (a ++ b).dropWhile q = a ++ b := by
  cases a with
  | nil => exact absurd rfl ha
  | cons c a' =>
      have hq : ¬ q c = true := by
        intro hq
        rw [List.dropWhile_cons, if_pos hq] at hd
        have hle : (a'.dropWhile q).length ≤ a'.length := (List.dropWhile_suffix q).length_le
        rw [hd] at hle
        simp at hle
      show ((c :: a') ++ b).dropWhile q = (c :: a') ++ b
      rw [List.cons_append, List.dropWhile_cons, if_neg hq]

theorem drop_succ_append (xs ys : List Char) (c : Char) :
    (xs ++ c :: ys).drop (xs.length + 1) = ys := by
  induction xs with
  | nil => rfl
  | cons x xs ih =>
      show (x :: (xs ++ c :: ys)).drop (xs.length + 1 + 1) = ys
      rw [List.drop_succ_cons, ih]

theorem parseLine_eq (line : List Char) :
    parseLine line =
      if containsSeq "/nix/store/".data (trimChars line) &&
          containsSeq ".nix".data (trimChars line) then
        match findCharIdx '#' (trimChars line) with
        | some i =>
            if (trimChars ((trimChars line).drop (i + 1))).isEmpty then none
            else some (String.mk (trimChars ((trimChars line).drop (i + 1))))
        | none => none
      else none := rfl

theorem trim_module_line (p m : List Char) (hm_ne : m ≠ []) (hm_trim : trimChars m = m) :
    trimChars ("    \"".data ++ (p ++ ("\" # ".data ++ m))) =
      '"' :: (p ++ ("\" # ".data ++ m)) := by
  have h1 : ("    \"".data ++ (p ++ ("\" # ".data ++ m))).dropWhile isRustWhitespace =
      '"' :: (p ++ ("\" # ".data ++ m)) := by
    show (' ' :: ' ' :: ' ' :: ' ' :: '"' :: (p ++ ("\" # ".data ++ m))).dropWhile
        isRustWhitespace = _
    rw [List.dropWhile_cons, if_pos (by decide), List.dropWhile_cons, if_pos (by decide),
      List.dropWhile_cons, if_pos (by decide), List.dropWhile_cons, if_pos (by decide),
      List.dropWhile_cons, if_neg (by decide)]
  have hrev : ('"' :: (p ++ ("\" # ".data ++ m))).reverse =
      m.reverse ++ (("\" # ".data).reverse ++ (p.reverse ++ ['"'])) := by
    rw [List.reverse_cons, List.reverse_append, List.reverse_append]
    simp [List.append_assoc]
  have h2 : ('"' :: (p ++ ("\" # ".data ++ m))).reverse.dropWhile isRustWhitespace =
      ('"' :: (p ++ ("\" # ".data ++ m))).reverse := by
    rw [hrev]
    exact dropWhile_append_of_head_false _
      (fun h => hm_ne (List.reverse_eq_nil_iff.mp h))
      (dropWhile_reverse_eq_self_of_trim hm_trim)
  rw [trimChars, h1, h2, List.reverse_reverse]

theorem parseLine_module_line (p m : List Char)
    (hp1 : containsSeq "/nix/store/".data p = true)
    (hp2 : containsSeq ".nix".data p = true)
    (hp3 : '#' ∉ p)
    (hm_ne : m ≠ []) (hm_trim : trimChars m = m) :
    parseLine ("    \"".data ++ (p ++ ("\" # ".data ++ m))) = some (String.mk m) := by
  have hL : '"' :: (p ++ ("\" # ".data ++ m)) =
      ('"' :: (p ++ ['"', ' '])) ++ '#' :: ' ' :: m := by
    simp [List.append_assoc]
  have hA : '#' ∉ ('"' :: (p ++ ['"', ' '])) := by
    intro hmem
    rcases List.mem_cons.mp hmem with h | h
    · exact absurd h (by decide)
    · rcases List.mem_append.mp h with h' | h'
      · exact hp3 h'
      · revert h'
        decide
  have hc1 : containsSeq "/nix/store/".data (('"' :: (p ++ ['"', ' '])) ++ '#' :: ' ' :: m) =
      true := by
    apply containsSeq_append_left
    show containsSeq _ (['"'] ++ (p ++ ['"', ' '])) = true
    exact containsSeq_append_right _ (containsSeq_append_left _ hp1)
  have hc2 : containsSeq ".nix".data (('"' :: (p ++ ['"', ' '])) ++ '#' :: ' ' :: m) =
      true := by
    apply containsSeq_append_left
    show containsSeq _ (['"'] ++ (p ++ ['"', ' '])) = true
    exact containsSeq_append_right _ (containsSeq_append_left _ hp2)
  have hfind : findCharIdx '#' (('"' :: (p ++ ['"', ' '])) ++ '#' :: ' ' :: m) =
      some ('"' :: (p ++ ['"', ' '])).length := findCharIdx_append _ hA
  have hdrop : (('"' :: (p ++ ['"', ' '])) ++ '#' :: ' ' :: m).drop
      (('"' :: (p ++ ['"', ' '])).length + 1) = ' ' :: m := drop_succ_append _ _ _
  have htrim2 : trimChars (' ' :: m) = m := by
    rw [trimChars, List.dropWhile_cons, if_pos (by decide), dropWhile_eq_self_of_trim hm_trim,
      dropWhile_reverse_eq_self_of_trim hm_trim, List.reverse_reverse]
  have hempty : m.isEmpty = false := by
    cases m with
    | nil => exact absurd rfl hm_ne
    | cons c cs => rfl
  rw [parseLine_eq, trim_module_line p m hm_ne hm_trim, hL]
  simp only [hc1, hc2, Bool.and_self, if_true, hfind, hdrop, htrim2, hempty]
  simp

/-! ## Claim C5: assembling render and parse. -/

theorem mps_find (r : ModuleRegistry) :
    ∀ l : List String,
      (∀ x ∈ l, (r.get_module_path x).isSome = true) →
      ∀ m ∈ l, ∃ p : String, r.get_module_path m = some p ∧
        (l.filterMap fun x => (r.get_module_path x).map fun q => (x, q)).find?
          (fun q => q.1 == m) = some (m, p) := by
  intro l
  induction l with
  | nil =>
      intro _ m hm
      cases hm
  | cons x l' ih =>
      intro hall m hm
      have hx : (r.get_module_path x).isSome = true := hall x (List.mem_cons_self x l')
      obtain ⟨px, hpx⟩ : ∃ px, r.get_module_path x = some px := by
        cases hgx : r.get_module_path x with
        | none => rw [hgx] at hx; cases hx
        | some q => exact ⟨q, rfl⟩
      have hfm : ((x :: l').filterMap fun y => (r.get_module_path y).map fun q => (y, q)) =
          (x, px) :: (l'.filterMap fun y => (r.get_module_path y).map fun q => (y, q)) := by
        simp [List.filterMap_cons, hpx]
      rw [hfm, List.find?_cons]
      by_cases hxm : x = m
      · have hbeq : ((x, px).1 == m) = true := by
          show (x == m) = true
          rw [hxm]
          exact beq_self_eq_true m
        refine ⟨px, ?_, ?_⟩
        · rw [← hxm]
          exact hpx
        · simp only [hbeq]
          rw [hxm]
      · have hm' : m ∈ l' := by
          rcases List.mem_cons.mp hm with h | h
          · exact absurd h.symm hxm
          · exact h
        obtain ⟨p, hp1, hp2⟩ := ih (fun y hy => hall y (List.mem_cons_of_mem x hy)) m hm'
        have hbeq : ((x, px).1 == m) = false := by
          show (x == m) = false
          exact beq_eq_false_iff_ne.mpr hxm
        refine ⟨p, hp1, ?_⟩
        simp only [hbeq]
        exact hp2

theorem parse_body (mps : List (String × String)) :
    ∀ (l : List String) (t : List Char),
      (∀ m ∈ l, ∃ p : String,
        mps.find? (fun q => q.1 == m) = some (m, p) ∧
        containsSeq "/nix/store/".data p.data = true ∧
        containsSeq ".nix".data p.data = true ∧ '#' ∉ p.data ∧ '\n' ∉ p.data) →
      (∀ m ∈ l, m.data ≠ [] ∧ trimChars m.data = m.data ∧ '\n' ∉ m.data) →
      (splitLines (l.flatMap (moduleLine mps) ++ t)).filterMap parseLine =
        l ++ (splitLines t).filterMap parseLine := by
  intro l
  induction l with
  | nil =>
      intro t _ _
      simp
  | cons m l' ih =>
      intro t hres hnames
      obtain ⟨p, hfind, hp1, hp2, hp3, hp4⟩ := hres m (List.mem_cons_self m l')
      obtain ⟨hm_ne, hm_trim, hm_nl⟩ := hnames m (List.mem_cons_self m l')
      have hml : moduleLine mps m =
          "    \"".data ++ (p.data ++ ("\" # ".data ++ (m.data ++ ['\n']))) := by
        simp [moduleLine, hfind]
      rw [List.flatMap_cons, hml]
      have hassoc :
          (("    \"".data ++ (p.data ++ ("\" # ".data ++ (m.data ++ ['\n'])))) ++
              l'.flatMap (moduleLine mps)) ++ t =
            ("    \"".data ++ (p.data ++ ("\" # ".data ++ m.data))) ++
              '\n' :: (l'.flatMap (moduleLine mps) ++ t) := by
        simp [List.append_assoc]
      rw [hassoc]
      have hnl : '\n' ∉ ("    \"".data ++ (p.data ++ ("\" # ".data ++ m.data))) := by
        intro hmem
        rcases List.mem_append.mp hmem with h | h
        · revert h
          decide
        · rcases List.mem_append.mp h with h' | h'
          · exact hp4 h'
          · rcases List.mem_append.mp h' with h'' | h''
            · revert h''
              decide
            · exact hm_nl h''
      rw [splitLines_append _ _ hnl, List.filterMap_cons]
      have hpl : parseLine ("    \"".data ++ (p.data ++ ("\" # ".data ++ m.data))) = some m :=
        parseLine_module_line p.data m.data hp1 hp2 hp3 hm_ne hm_trim
      simp only [hpl]
      rw [ih t (fun y hy => hres y (List.mem_cons_of_mem m hy))
        (fun y hy => hnames y (List.mem_cons_of_mem m hy))]
      rfl

/-- C5 (amended): for any name list whose names are non-empty, contain no
newline and carry no leading or trailing whitespace, and where each name
resolves through the catalog to a path that contains `/nix/store/` and
`.nix` and contains neither `#` nor a newline, parsing the rendered
descriptor yields back exactly the same ordered name list. -/
theorem render_parse_round_trip (l : List String) (r : ModuleRegistry)
    (hres : ∀ m ∈ l, ∃ p : String, r.get_module_path m = some p ∧
      containsSeq "/nix/store/".data p.data = true ∧
      containsSeq ".nix".data p.data = true ∧ '#' ∉ p.data ∧ '\n' ∉ p.data)
    (hnames : ∀ m ∈ l, m.data ≠ [] ∧ trimChars m.data = m.data ∧ '\n' ∉ m.data) :
    parse_active_modules ((ModuleFile.mk l).generate_content r) = l := by
  have hgc : (ModuleFile.mk l).generate_content r =
      generate_file_content l (l.filterMap fun x => (r.get_module_path x).map fun q => (x, q)) :=
    rfl
  rw [hgc]
  cases l with
  | nil =>
      show parse_active_modules (generate_file_content [] []) = []
      decide
  | cons m0 l0 =>
      have hpam : ∀ X : List Char,
          parse_active_modules X = (splitLines X).filterMap parseLine := fun _ => rfl
      have hsplit_lit : ∀ X : List Char,
          "# This file is generated by runtime-module script\n\x7b ... \x7d:\n\x7b\n".data ++ X =
            "# This file is generated by runtime-module script".data ++ '\n' ::
              ("\x7b ... \x7d:".data ++ '\n' :: ("\x7b".data ++ '\n' :: X)) := fun _ => rfl
      have himports_lit : ∀ X : List Char,
          "  imports = [\n".data ++ X = "  imports = [".data ++ '\n' :: X := fun _ => rfl
      have hc : generate_file_content (m0 :: l0)
          ((m0 :: l0).filterMap fun x => (r.get_module_path x).map fun q => (x, q)) =
          "# This file is generated by runtime-module script".data ++ '\n' ::
            ("\x7b ... \x7d:".data ++ '\n' :: ("\x7b".data ++ '\n' ::
              ("  imports = [".data ++ '\n' ::
                ((m0 :: l0).flatMap (moduleLine
                    ((m0 :: l0).filterMap fun x => (r.get_module_path x).map fun q => (x, q))) ++
                  ("  ];\n".data ++ "\x7d\n".data))))) := by
        show "# This file is generated by runtime-module script\n\x7b ... \x7d:\n\x7b\n".data ++
            (("  imports = [\n".data ++
              ((m0 :: l0).flatMap (moduleLine
                  ((m0 :: l0).filterMap fun x => (r.get_module_path x).map fun q => (x, q))) ++
                "  ];\n".data)) ++ "\x7d\n".data) = _
        rw [List.append_assoc, List.append_assoc, hsplit_lit, himports_lit]
      rw [hpam, hc]
      rw [splitLines_append "# This file is generated by runtime-module script".data _
          (by decide),
        splitLines_append "\x7b ... \x7d:".data _ (by decide),
        splitLines_append "\x7b".data _ (by decide),
        splitLines_append "  imports = [".data _ (by decide)]
      have hh1 : parseLine "# This file is generated by runtime-module script".data = none := by
        decide
      have hh2 : parseLine "\x7b ... \x7d:".data = none := by decide
      have hh3 : parseLine "\x7b".data = none := by decide
      have hh4 : parseLine "  imports = [".data = none := by decide
      rw [List.filterMap_cons, List.filterMap_cons, List.filterMap_cons, List.filterMap_cons]
      simp only [hh1, hh2, hh3, hh4]
      have hall : ∀ x ∈ (m0 :: l0), (r.get_module_path x).isSome = true := by
        intro x hx
        obtain ⟨p, hp, _⟩ := hres x hx
        rw [hp]
        rfl
      have hres' : ∀ m ∈ (m0 :: l0), ∃ p : String,
          ((m0 :: l0).filterMap fun x =>
            (r.get_module_path x).map fun q => (x, q)).find? (fun q => q.1 == m) =
              some (m, p) ∧
          containsSeq "/nix/store/".data p.data = true ∧
          containsSeq ".nix".data p.data = true ∧ '#' ∉ p.data ∧ '\n' ∉ p.data := by
        intro m hm
        obtain ⟨p, hp, c1, c2, c3, c4⟩ := hres m hm
        obtain ⟨p', hp1', hp2'⟩ := mps_find r (m0 :: l0) hall m hm
        rw [hp] at hp1'
        cases hp1'
        exact ⟨p, hp2', c1, c2, c3, c4⟩
      rw [parse_body _ (m0 :: l0) _ hres' hnames]
      have htail : (splitLines ("  ];\n".data ++ "\x7d\n".data)).filterMap parseLine = [] := by
        decide
      rw [htail, List.append_nil]

/-- C5 counterexample: with catalog path `p` (no `/nix/store/`, no `.nix`)
the module name `a` — which contains no separator characters and resolves
through the catalog — renders to a line the parser cannot recognise, so the
round trip loses it. -/
theorem render_parse_counterexample :
    cexRegistry.get_module_path "a" = some "p" ∧
    cexFile.active_modules = ["a"] ∧
    parse_active_modules (cexFile.generate_content cexRegistry) ≠ ["a"] ∧
    parse_active_modules (cexFile.generate_content cexRegistry) = [] := by
  decide

/-- Witness for the amended C5 on a concrete two-module catalog with
`/nix/store/` paths. -/
theorem render_parse_round_trip_witness :
    parse_active_modules ((ModuleFile.mk ["alpha", "beta"]).generate_content
      (ModuleRegistry.mk
        [⟨"alpha", "/nix/store/aaa-alpha.nix", "", ModuleState.Disabled⟩,
         ⟨"beta", "/nix/store/bbb-beta.nix", "", ModuleState.Enabled⟩] true)) =
      ["alpha", "beta"] :=
  render_parse_round_trip ["alpha", "beta"]
    (ModuleRegistry.mk
      [⟨"alpha", "/nix/store/aaa-alpha.nix", "", ModuleState.Disabled⟩,
       ⟨"beta", "/nix/store/bbb-beta.nix", "", ModuleState.Enabled⟩] true)
    (by
      intro m hm
      rcases List.mem_cons.mp hm with rfl | hm'
      · exact ⟨"/nix/store/aaa-alpha.nix", by decide⟩
      rcases List.mem_cons.mp hm' with rfl | hm''
      · exact ⟨"/nix/store/bbb-beta.nix", by decide⟩
      · cases hm'')
    (by decide)

end RuntimeModules
